import Mathlib

/-!
Verification development for the staged Sampler / MemoryBuffer replay
pipeline of `src/inept/utilities.py`.

Modelling conventions:
- torch tensors are modelled as a list of integer rows plus a device tag;
  the claims under study only concern row selection and device movement;
- numpy random draws are modelled by an explicit draw oracle
  `draw : Nat -> Nat`; `np.random.choice` picks `pop[draw i % pop.length]`
  for each of `size` positions, which captures exactly the guarantees the
  claims rely on (output length and membership in the population);
- fallible Python operations (KeyError on unknown stage names, ValueError
  from `np.random.choice` on an empty population, TypeError from indexing
  or mapping over `None`) are modelled with `Except String`;
- floating point reward arithmetic in `MemoryBuffer.propagate_rewards` is
  modelled with exact rationals.
-/

/-- Tensor model: a list of scalar rows together with a device tag. -/
structure Tensor where
  rows : List Int
  device : Nat
deriving Repr, DecidableEq

/-- Row selection `x[idx]` by a list of indices (numpy fancy indexing). -/
def Tensor.index (t : Tensor) (idx : List Nat) : Tensor :=
  { rows := idx.map (fun i => t.rows.getD i 0), device := t.device }

/-- Device transfer `x.to(device)`. -/
def Tensor.to (t : Tensor) (d : Nat) : Tensor :=
  { rows := t.rows, device := d }

mutual
/-- Nested tensor tree: a tensor leaf or a list of members, mirroring the
recursion of `recursive_tensor_func` over tensors and list-like members. -/
inductive TTree where
  | leaf : Tensor → TTree
  | node : TTreeList → TTree
deriving Repr
/-- List of tensor trees, the member sequence of a `TTree.node`. -/
inductive TTreeList where
  | nil : TTreeList
  | cons : TTree → TTreeList → TTreeList
deriving Repr
end

mutual
/-- Translation of `recursive_tensor_func(input, func)`: apply `func` to
every tensor leaf, rebuilding the list structure otherwise. -/
def recursive_tensor_func : TTree → (Tensor → Tensor) → TTree
  | .leaf t, f => .leaf (f t)
  | .node cs, f => .node (recursive_tensor_func_members cs f)
/-- Member-wise traversal used by `recursive_tensor_func` on list input. -/
def recursive_tensor_func_members : TTreeList → (Tensor → Tensor) → TTreeList
  | .nil, _ => .nil
  | .cons c cs, f => .cons (recursive_tensor_func c f) (recursive_tensor_func_members cs f)
end

/-- Dict of named tensor trees, the shape of the sampled data batches. -/
def Dict := List (String × TTree)

/-- Translation of `dict_map(dict, func)` (non-inplace form): apply `func`
to every value of the dict. -/
def dict_map (d : Dict) (f : TTree → TTree) : Dict :=
  d.map (fun kv => (kv.1, f kv.2))

/-- Translation of the `subfunc` closure inside
`dict_map_recursive_tensor_idx_to`: optionally select rows `idx`, then
optionally move to `device`. -/
def subfunc (idx : Option (List Nat)) (device : Option Nat) (x : Tensor) : Tensor :=
  let x1 := match idx with
    | some i => x.index i
    | none => x
  match device with
  | some d => x1.to d
  | none => x1

/-- Translation of `dict_map_recursive_tensor_idx_to(dict, idx, device)`. -/
def dict_map_recursive_tensor_idx_to (d : Dict) (idx : Option (List Nat))
    (device : Option Nat) : Dict :=
  dict_map d (fun t => recursive_tensor_func t (subfunc idx device))

/-- Modelled from the spec: fancy indexing `memory[idx]` of the external
`AdvancedMemoryBuffer` (its class is not part of the sources under
verification); per the spec it produces a copy of exactly the selected
rows, applying the same index operation recursively to every leaf tensor
of the nested dictionary-of-tensors dataset. -/
def Memory.getIdx (m : Dict) (idx : List Nat) : Dict :=
  dict_map m (fun t => recursive_tensor_func t (fun x => x.index idx))

/-- Model of `np.random.choice(pop, size)` (with replacement): errors on an
empty population unless no samples are taken, otherwise returns `size`
draws taken from the population through the draw oracle. -/
def np_random_choice (pop : List Nat) (size : Nat) (draw : Nat → Nat) :
    Except String (List Nat) :=
  if pop.length = 0 ∧ size ≠ 0 then
    .error "ValueError: a must be greater than 0 unless no samples are taken"
  else
    .ok ((List.range size).map (fun i => pop.getD (draw i % pop.length) 0))

/-- Translation of the `Sampler` object state: configuration fields fixed
at construction plus the mutable index and cache variables. The length of
the external full dataset, `len(self.memory)`, is kept as the separate
field `memoryLen` since the dataset object itself is external. -/
structure Sampler where
  memory : Dict
  memoryLen : Nat
  rewards : Tensor
  sizes : List Nat
  mem_stage : Nat
  gpu_stage : Nat
  device : Nat
  idxs : List (List Nat)
  mem_data : Option Dict
  mem_rewards : Option Tensor
  gpu_data : Option Dict
  gpu_rewards : Option Tensor

/-- Translation of the `stage_dict` constant mapping stage names to tier
numbers; an absent name models a Python `KeyError`. -/
def stage_dict (name : String) : Option Nat :=
  if name = "maxbatch" then some 0
  else if name = "batch" then some 1
  else if name = "minibatch" then some 2
  else none

/-- Translation of `Sampler.__init__`: resolve both stage names through
`stage_dict` (KeyError on unknown names) and initialise the index lists to
one empty list per size entry. -/
def Sampler.init (memory : Dict) (memoryLen : Nat) (rewards : Tensor)
    (sizes : List Nat) (mem_stage_name gpu_stage_name : String) (device : Nat) :
    Except String Sampler :=
  match stage_dict mem_stage_name, stage_dict gpu_stage_name with
  | some ms, some gs =>
    .ok { memory := memory, memoryLen := memoryLen, rewards := rewards,
          sizes := sizes, mem_stage := ms, gpu_stage := gs, device := device,
          idxs := List.replicate sizes.length [],
          mem_data := none, mem_rewards := none,
          gpu_data := none, gpu_rewards := none }
  | _, _ => .error "KeyError"

/-- Fancy indexing `arr[idx]` of a numpy index array by an index list;
errors like numpy when a position is out of range. -/
def fancyIndex (arr : List Nat) (idx : List Nat) : Except String (List Nat) :=
  if ∀ i ∈ idx, i < arr.length then
    .ok (idx.map (fun i => arr.getD i 0))
  else .error "IndexError"

/-- Translation of `Sampler.sample(stage, idx)`. The index space is the
full dataset size at stage 0, a fresh count of the previous selection when
the previous stage is a materialization boundary, and the previous index
array otherwise. When `idx` is given the selected indices are stored, but
the source then unconditionally overwrites them with the random draw (the
random-choice line is not guarded by an `else`). -/
def Sampler.sample (s : Sampler) (st : Nat) (idx : Option (List Nat))
    (draw : Nat → Nat) : Except String Sampler :=
  let sample_from : Nat ⊕ List Nat :=
    if st = 0 then .inl s.memoryLen
    else if st - 1 = s.mem_stage ∨ st - 1 = s.gpu_stage then
      .inl (s.idxs.getD (st - 1) []).length
    else .inr (s.idxs.getD (st - 1) [])
  let pop : List Nat :=
    match sample_from with
    | .inl n => List.range n
    | .inr l => l
  match idx with
  | some ix =>
    match fancyIndex pop ix with
    | .error e => .error e
    | .ok sel =>
      let s1 := { s with idxs := s.idxs.set st sel }
      match np_random_choice pop (s.sizes.getD st 0) draw with
      | .error e => .error e
      | .ok out => .ok { s1 with idxs := s1.idxs.set st out }
  | none =>
    match np_random_choice pop (s.sizes.getD st 0) draw with
    | .error e => .error e
    | .ok out => .ok { s with idxs := s.idxs.set st out }

/-- Translation of the first branch of `Sampler.act`: at the memory stage,
load the rows selected by `idxs[stage]` from the full dataset into the
staging cache. -/
def Sampler.memPhase (s : Sampler) (st : Nat) : Sampler :=
  if st = s.mem_stage then
    { s with mem_data := some (Memory.getIdx s.memory (s.idxs.getD st [])),
             mem_rewards := some (s.rewards.index (s.idxs.getD st [])) }
  else s

/-- Translation of the second branch of `Sampler.act`: at the gpu stage,
copy into accelerator residency, either straight from the just-staged data
when the two boundary tiers coincide, or narrowing the staging cache by
`idxs[stage]` otherwise. A missing staging cache models the Python
TypeError raised when `None` is mapped or indexed. -/
def Sampler.gpuPhase (s : Sampler) (st : Nat) : Except String Sampler :=
  if st = s.gpu_stage then
    match s.mem_data, s.mem_rewards with
    | some md, some mr =>
      if st = s.mem_stage then
        .ok { s with
              gpu_data := some (dict_map_recursive_tensor_idx_to md none (some s.device)),
              gpu_rewards := some (mr.to s.device) }
      else
        .ok { s with
              gpu_data := some (dict_map_recursive_tensor_idx_to md
                (some (s.idxs.getD st [])) (some s.device)),
              gpu_rewards := some ((mr.index (s.idxs.getD st [])).to s.device) }
    | _, _ => .error "TypeError: NoneType"
  else .ok s

/-- Translation of the return selection of `Sampler.act`: serve from the
accelerator cache at or past the gpu stage, from the staging cache at or
past the memory stage, and otherwise return no data together with the full
reward array selected by `idxs[stage]`. In the branches for a stage equal
to a boundary the caches are always set, since the corresponding phase of
the same call has just written them. -/
def Sampler.returnSel (s : Sampler) (st : Nat) : Except String (Option Dict × Tensor) :=
  if s.gpu_stage ≤ st then
    match s.gpu_data, s.gpu_rewards with
    | some gd, some gr =>
      if st = s.gpu_stage then .ok (some gd, gr)
      else .ok (some (dict_map_recursive_tensor_idx_to gd (some (s.idxs.getD st [])) none),
                gr.index (s.idxs.getD st []))
    | _, _ => .error "TypeError: NoneType"
  else if s.mem_stage ≤ st then
    match s.mem_data, s.mem_rewards with
    | some md, some mr =>
      if st = s.mem_stage then .ok (some md, mr)
      else .ok (some (dict_map_recursive_tensor_idx_to md (some (s.idxs.getD st [])) none),
                mr.index (s.idxs.getD st []))
    | _, _ => .error "TypeError: NoneType"
  else
    .ok (none, s.rewards.index (s.idxs.getD st []))

/-- Translation of `Sampler.act(stage)`: run the memory phase, the gpu
phase and then the return selection on the updated state. -/
def Sampler.act (s : Sampler) (st : Nat) : Except String (Sampler × Option Dict × Tensor) :=
  match (s.memPhase st).gpuPhase st with
  | .error e => .error e
  | .ok s2 =>
    match s2.returnSel st with
    | .error e => .error e
    | .ok dr => .ok (s2, dr.1, dr.2)

/-- Translation of `Sampler.stage(stage, **kwargs)`: resolve the stage
name (KeyError on an unknown name), then `sample` followed by `act`. -/
def Sampler.stage (s : Sampler) (name : String) (idx : Option (List Nat))
    (draw : Nat → Nat) : Except String (Sampler × Option Dict × Tensor) :=
  match stage_dict name with
  | none => .error "KeyError"
  | some st =>
    match s.sample st idx draw with
    | .error e => .error e
    | .ok s1 => s1.act st

/-- The three-call staging protocol of the spec: `stage('maxbatch')`,
`stage('batch')`, `stage('minibatch')` in order, each with its own draw
oracle, returning the final sampler state. -/
def Sampler.runThree (s : Sampler) (d0 d1 d2 : Nat → Nat) : Except String Sampler :=
  match s.stage "maxbatch" none d0 with
  | .error e => .error e
  | .ok (s0, _, _) =>
    match s0.stage "batch" none d1 with
    | .error e => .error e
    | .ok (s1, _, _) =>
      match s1.stage "minibatch" none d2 with
      | .error e => .error e
      | .ok (s2, _, _) => .ok s2

/-- Transition record added to the memory buffer, one value per parallel
sequence. Entity keys are modelled as naturals, the tensor payloads by
abstract integer identifiers, rewards by exact rationals. -/
structure Record where
  key : Nat
  state : Int
  action : Int
  action_log : Int
  state_val : Int
  reward : ℚ
  is_terminal : Bool

/-- Translation of the `MemoryBuffer` state: seven parallel ordered
sequences. -/
structure MemoryBuffer where
  keys : List Nat
  states : List Int
  actions : List Int
  action_logs : List Int
  state_vals : List Int
  rewards : List ℚ
  is_terminals : List Bool

/-- Translation of `MemoryBuffer.__init__`: all seven sequences empty. -/
def MemoryBuffer.empty : MemoryBuffer :=
  { keys := [], states := [], actions := [], action_logs := [],
    state_vals := [], rewards := [], is_terminals := [] }

/-- Translation of `MemoryBuffer.__len__`. -/
def MemoryBuffer.length (b : MemoryBuffer) : Nat := b.keys.length

/-- Caller-side addition of one transition record: one value pushed onto
each of the seven parallel attribute sequences, the way the surrounding
collection loop mutates the buffer by appending to the seven lists
directly. The `MemoryBuffer` class itself defines no `append` method (see
`MemoryBuffer.methodNames`); this operation is deliberately not named
`append` because it is not a method of the source class. -/
def MemoryBuffer.pushRecord (b : MemoryBuffer) (r : Record) : MemoryBuffer :=
  { keys := b.keys ++ [r.key], states := b.states ++ [r.state],
    actions := b.actions ++ [r.action], action_logs := b.action_logs ++ [r.action_log],
    state_vals := b.state_vals ++ [r.state_val], rewards := b.rewards ++ [r.reward],
    is_terminals := b.is_terminals ++ [r.is_terminal] }

/-- Translation of `MemoryBuffer.clear`: empties all seven sequences. -/
def MemoryBuffer.clear (_ : MemoryBuffer) : MemoryBuffer := MemoryBuffer.empty

/-- Method table of the `MemoryBuffer` class statement: the names of
exactly the methods the class body defines in the source. -/
def MemoryBuffer.methodNames : List String :=
  ["__init__", "__len__", "propagate_rewards", "clear"]

/-- Loop body of `propagate_rewards`: walk the records in the given order
(the caller passes the temporally reversed log), reset the per-key
accumulator at a terminal record, push the decayed value. -/
def propagate_aux (gamma : ℚ) : (Nat → ℚ) → List (Nat × ℚ × Bool) → List ℚ
  | _, [] => []
  | acc, (k, r, term) :: rest =>
    let v := r + gamma * (if term then 0 else acc k)
    v :: propagate_aux gamma (fun k2 => if k2 = k then v else acc k2) rest

/-- Translation of `MemoryBuffer.propagate_rewards(gamma)` as an explicit
state transformer: the method reads the key, reward and terminal sequences
in reverse temporal order, threads per-key accumulators initialised to
zero, and returns the computed returns re-reversed into temporal order
next to the (unchanged) buffer state. The final float32 tensor cast is
modelled by exact rationals. -/
def MemoryBuffer.propagate_rewards (b : MemoryBuffer) (gamma : ℚ) :
    MemoryBuffer × List ℚ :=
  ({ keys := b.keys, states := b.states, actions := b.actions,
     action_logs := b.action_logs, state_vals := b.state_vals,
     rewards := b.rewards, is_terminals := b.is_terminals },
   (propagate_aux gamma (fun _ => 0)
     (b.keys.reverse.zip (b.rewards.reverse.zip b.is_terminals.reverse))).reverse)

/-- Operation alphabet of the buffer mutations performed by the
collection loop: a seven-way push of one record onto the attribute lists,
or the `clear` method. -/
inductive BufOp where
  | push (r : Record)
  | clear

/-- Apply one buffer operation. -/
def BufOp.apply (b : MemoryBuffer) : BufOp → MemoryBuffer
  | .push r => b.pushRecord r
  | .clear => b.clear

/-- Run a sequence of push and clear operations from a given buffer. -/
def runOps (b : MemoryBuffer) : List BufOp → MemoryBuffer
  | [] => b
  | op :: ops => runOps (BufOp.apply b op) ops

/-- Structural invariant: all seven parallel sequences have equal length. -/
def MemoryBuffer.sameLengths (b : MemoryBuffer) : Prop :=
  b.states.length = b.keys.length ∧ b.actions.length = b.keys.length ∧
  b.action_logs.length = b.keys.length ∧ b.state_vals.length = b.keys.length ∧
  b.rewards.length = b.keys.length ∧ b.is_terminals.length = b.keys.length

/-- Return of the first value whose parallel key matches the target key,
with a default when no position matches; used to phrase the next
same-key return of a record. -/
def nextSameKey (k : Nat) : List Nat → List ℚ → ℚ → ℚ
  | k2 :: ks, v :: vs, dflt => if k2 = k then v else nextSameKey k ks vs dflt
  | _, _, dflt => dflt

/-- Values of the second list at the positions where the parallel key list
carries the target key. -/
def selectByKey {α : Type} (k : Nat) : List Nat → List α → List α
  | k2 :: ks, v :: vs => (if k2 = k then [v] else []) ++ selectByKey k ks vs
  | _, _ => []

/-- Buffer holding exactly the records of one key, in their original
relative order. -/
def MemoryBuffer.restrictKey (b : MemoryBuffer) (k : Nat) : MemoryBuffer :=
  { keys := selectByKey k b.keys b.keys, states := selectByKey k b.keys b.states,
    actions := selectByKey k b.keys b.actions,
    action_logs := selectByKey k b.keys b.action_logs,
    state_vals := selectByKey k b.keys b.state_vals,
    rewards := selectByKey k b.keys b.rewards,
    is_terminals := selectByKey k b.keys b.is_terminals }

/-- Forward entry list of a buffer: records in temporal order as
(key, reward, terminal) triples. -/
def fwdEntries (b : MemoryBuffer) : List (Nat × ℚ × Bool) :=
  b.keys.zip (b.rewards.zip b.is_terminals)

/-- Returns of an entry list given in temporal order, threading the
accumulators from a given initial state. -/
def fwdReturns (gamma : ℚ) (acc : Nat → ℚ) (l : List (Nat × ℚ × Bool)) : List ℚ :=
  (propagate_aux gamma acc l.reverse).reverse

/-- Index space actually drawn from by `Sampler.sample`, as a list. -/
def Sampler.samplePop (s : Sampler) (st : Nat) : List Nat :=
  if st = 0 then List.range s.memoryLen
  else if st - 1 = s.mem_stage ∨ st - 1 = s.gpu_stage then
    List.range (s.idxs.getD (st - 1) []).length
  else s.idxs.getD (st - 1) []

theorem sample_none_eq (s : Sampler) (st : Nat) (draw : Nat → Nat) :
    s.sample st none draw =
      match np_random_choice (s.samplePop st) (s.sizes.getD st 0) draw with
      | .error e => .error e
      | .ok out => .ok { s with idxs := s.idxs.set st out } := by
  unfold Sampler.sample Sampler.samplePop
  split
  · rfl
  · split
    · rfl
    · rfl

theorem np_random_choice_ok {pop : List Nat} {size : Nat} {draw : Nat → Nat}
    {out : List Nat} (h : np_random_choice pop size draw = .ok out) :
    out.length = size ∧ ∀ x ∈ out, x ∈ pop := by
  unfold np_random_choice at h
  split at h
  · exact absurd h (by simp)
  · rename_i hcond
    injection h with h
    subst h
    refine ⟨by simp, ?_⟩
    intro x hx
    rcases List.mem_map.mp hx with ⟨i, _, hix⟩
    rcases Nat.eq_zero_or_pos pop.length with hlen | hlen
    · exact absurd ⟨hlen, fun hs => by simp [hs] at hx⟩ hcond
    · have hmod : draw i % pop.length < pop.length := Nat.mod_lt _ hlen
      rw [← hix, List.getD_eq_getElem _ _ hmod]
      exact List.getElem_mem _

theorem sample_none_ok {s s1 : Sampler} {st : Nat} {draw : Nat → Nat}
    (h : s.sample st none draw = .ok s1) :
    ∃ out, np_random_choice (s.samplePop st) (s.sizes.getD st 0) draw = .ok out ∧
      s1 = { s with idxs := s.idxs.set st out } := by
  rw [sample_none_eq] at h
  split at h
  · exact absurd h (by simp)
  · rename_i out hout
    injection h with h
    exact ⟨out, hout, h.symm⟩

theorem memPhase_fields (s : Sampler) (st : Nat) :
    (s.memPhase st).memory = s.memory ∧ (s.memPhase st).memoryLen = s.memoryLen ∧
    (s.memPhase st).rewards = s.rewards ∧ (s.memPhase st).sizes = s.sizes ∧
    (s.memPhase st).mem_stage = s.mem_stage ∧ (s.memPhase st).gpu_stage = s.gpu_stage ∧
    (s.memPhase st).device = s.device ∧ (s.memPhase st).idxs = s.idxs ∧
    (s.memPhase st).gpu_data = s.gpu_data ∧ (s.memPhase st).gpu_rewards = s.gpu_rewards := by
  unfold Sampler.memPhase
  split <;> simp

theorem gpuPhase_ok_fields {s s1 : Sampler} {st : Nat} (h : s.gpuPhase st = .ok s1) :
    s1.memory = s.memory ∧ s1.memoryLen = s.memoryLen ∧
    s1.rewards = s.rewards ∧ s1.sizes = s.sizes ∧
    s1.mem_stage = s.mem_stage ∧ s1.gpu_stage = s.gpu_stage ∧
    s1.device = s.device ∧ s1.idxs = s.idxs ∧
    s1.mem_data = s.mem_data ∧ s1.mem_rewards = s.mem_rewards := by
  unfold Sampler.gpuPhase at h
  split at h
  · split at h
    · split at h <;> · injection h with h; subst h; simp
    · exact absurd h (by simp)
  · injection h with h; subst h; exact ⟨rfl, rfl, rfl, rfl, rfl, rfl, rfl, rfl, rfl, rfl⟩

theorem act_ok_fields {s s1 : Sampler} {st : Nat} {d : Option Dict} {r : Tensor}
    (h : s.act st = .ok (s1, d, r)) :
    s1.memory = s.memory ∧ s1.memoryLen = s.memoryLen ∧
    s1.rewards = s.rewards ∧ s1.sizes = s.sizes ∧
    s1.mem_stage = s.mem_stage ∧ s1.gpu_stage = s.gpu_stage ∧
    s1.device = s.device ∧ s1.idxs = s.idxs := by
  unfold Sampler.act at h
  split at h
  · exact absurd h (by simp)
  · rename_i s2 hg
    split at h
    · exact absurd h (by simp)
    · rename_i dr hr
      injection h with h
      obtain rfl : s2 = s1 := congrArg Prod.fst h
      obtain ⟨g1, g2, g3, g4, g5, g6, g7, g8, -, -⟩ := gpuPhase_ok_fields hg
      obtain ⟨m1, m2, m3, m4, m5, m6, m7, m8, -, -⟩ := memPhase_fields s st
      exact ⟨g1.trans m1, g2.trans m2, g3.trans m3, g4.trans m4,
        g5.trans m5, g6.trans m6, g7.trans m7, g8.trans m8⟩

theorem stage_none_ok_decompose {s s' : Sampler} {name : String} {st : Nat}
    {dd : Nat → Nat} {dict : Option Dict} {r : Tensor}
    (hname : stage_dict name = some st) (h : s.stage name none dd = .ok (s', dict, r)) :
    ∃ out, np_random_choice (s.samplePop st) (s.sizes.getD st 0) dd = .ok out ∧
      out.length = s.sizes.getD st 0 ∧ (∀ x ∈ out, x ∈ s.samplePop st) ∧
      s'.idxs = s.idxs.set st out ∧ s'.sizes = s.sizes ∧
      s'.mem_stage = s.mem_stage ∧ s'.gpu_stage = s.gpu_stage ∧
      s'.memoryLen = s.memoryLen := by
  unfold Sampler.stage at h
  simp only [hname] at h
  split at h
  · exact absurd h (by simp)
  · rename_i s1 hs
    obtain ⟨out, hchoice, rfl⟩ := sample_none_ok hs
    obtain ⟨hlen, hmem⟩ := np_random_choice_ok hchoice
    obtain ⟨-, hLen, -, hSizes, hMs, hGs, -, hIdxs⟩ := act_ok_fields h
    exact ⟨out, hchoice, hlen, hmem, by simpa using hIdxs, by simpa using hSizes,
      by simpa using hMs, by simpa using hGs, by simpa using hLen⟩

/-- C1: after `stage('maxbatch')`, `stage('batch')`, `stage('minibatch')`
in order on a sampler built over a dataset of `N` records with tier sizes
`[a, b, c]`, the three index arrays have lengths `a`, `b`, `c`; every
element of `idxs[0]` lies below `N`; a tier not immediately after the mem
or gpu boundary selects elements of the previous tier selection; a tier
immediately after a boundary selects from the fresh range below the
length of the previous tier selection. -/
theorem claim_C1 (mem : Dict) (N : Nat) (rew : Tensor) (a b c : Nat)
    (msn gsn : String) (dev : Nat) (s0 s3 : Sampler) (d0 d1 d2 : Nat → Nat)
    (hinit : Sampler.init mem N rew [a, b, c] msn gsn dev = .ok s0)
    (hrun : s0.runThree d0 d1 d2 = .ok s3) :
    (s3.idxs.getD 0 []).length = a ∧ (s3.idxs.getD 1 []).length = b ∧
    (s3.idxs.getD 2 []).length = c ∧ (∀ x ∈ s3.idxs.getD 0 [], x < N) ∧
    ((0 ≠ s0.mem_stage ∧ 0 ≠ s0.gpu_stage) →
      ∀ x ∈ s3.idxs.getD 1 [], x ∈ s3.idxs.getD 0 []) ∧
    ((0 = s0.mem_stage ∨ 0 = s0.gpu_stage) →
      ∀ x ∈ s3.idxs.getD 1 [], x < (s3.idxs.getD 0 []).length) ∧
    ((1 ≠ s0.mem_stage ∧ 1 ≠ s0.gpu_stage) →
      ∀ x ∈ s3.idxs.getD 2 [], x ∈ s3.idxs.getD 1 []) ∧
    ((1 = s0.mem_stage ∨ 1 = s0.gpu_stage) →
      ∀ x ∈ s3.idxs.getD 2 [], x < (s3.idxs.getD 1 []).length) := by
  unfold Sampler.init at hinit
  split at hinit
  case h_2 => exact absurd hinit (by simp)
  rename_i ms gs hms hgs
  injection hinit with hinit
  subst hinit
  unfold Sampler.runThree at hrun
  split at hrun
  · exact absurd hrun (by simp)
  rename_i sa da ra h0
  split at hrun
  · exact absurd hrun (by simp)
  rename_i sb db rb h1
  split at hrun
  · exact absurd hrun (by simp)
  rename_i sc dc rc h2
  injection hrun with hrun
  subst hrun
  obtain ⟨out0, -, len0, mem0, idxa0, siza, msa, gsa, -⟩ :=
    @stage_none_ok_decompose _ _ _ 0 _ _ _ (by decide) h0
  obtain ⟨out1, -, len1, mem1, idxb0, sizb, msb, gsb, -⟩ :=
    @stage_none_ok_decompose _ _ _ 1 _ _ _ (by decide) h1
  obtain ⟨out2, -, len2, mem2, idxc0, sizc, msc, gsc, -⟩ :=
    @stage_none_ok_decompose _ _ _ 2 _ _ _ (by decide) h2
  have idxa : sa.idxs = [out0, [], []] := by rw [idxa0]; rfl
  have idxb : sb.idxs = [out0, out1, []] := by rw [idxb0, idxa]; rfl
  have idxc : sc.idxs = [out0, out1, out2] := by rw [idxc0, idxb]; rfl
  have hpop0 : ∀ x ∈ out0, x < N := by
    intro x hx
    have := mem0 x hx
    unfold Sampler.samplePop at this
    simpa using this
  have hgd0 : sc.idxs.getD 0 [] = out0 := by rw [idxc]; rfl
  have hgd1 : sc.idxs.getD 1 [] = out1 := by rw [idxc]; rfl
  have hgd2 : sc.idxs.getD 2 [] = out2 := by rw [idxc]; rfl
  have hsa0 : sa.idxs.getD 0 [] = out0 := by rw [idxa]; rfl
  have hsb1 : sb.idxs.getD 1 [] = out1 := by rw [idxb]; rfl
  refine ⟨?_, ?_, ?_, ?_, ?_, ?_, ?_, ?_⟩
  · rw [hgd0, len0]; rfl
  · rw [hgd1, len1, siza]; rfl
  · rw [hgd2, len2, sizb, siza]; rfl
  · intro x hx; exact hpop0 x (hgd0 ▸ hx)
  · rintro ⟨hm, hg⟩ x hx
    have hx1 := mem1 x (hgd1 ▸ hx)
    unfold Sampler.samplePop at hx1
    rw [if_neg (by omega)] at hx1
    rw [if_neg (fun hcase => hcase.elim (fun h => hm (h.trans msa)) (fun h => hg (h.trans gsa)))] at hx1
    rw [hgd0, ← hsa0]
    exact hx1
  · intro hcond x hx
    have hx1 := mem1 x (hgd1 ▸ hx)
    unfold Sampler.samplePop at hx1
    rw [if_neg (by omega)] at hx1
    rw [if_pos (hcond.imp (fun h => h.trans msa.symm) (fun h => h.trans gsa.symm))] at hx1
    rw [hgd0, ← hsa0]
    simpa using hx1
  · rintro ⟨hm, hg⟩ x hx
    have hx2 := mem2 x (hgd2 ▸ hx)
    unfold Sampler.samplePop at hx2
    rw [if_neg (by omega)] at hx2
    rw [if_neg (fun hcase => hcase.elim (fun h => hm (h.trans (msb.trans msa))) (fun h => hg (h.trans (gsb.trans gsa))))] at hx2
    rw [hgd1, ← hsb1]
    simpa using hx2
  · intro hcond x hx
    have hx2 := mem2 x (hgd2 ▸ hx)
    unfold Sampler.samplePop at hx2
    rw [if_neg (by omega)] at hx2
    rw [if_pos (hcond.imp (fun h => h.trans (msb.trans msa).symm) (fun h => h.trans (gsb.trans gsa).symm))] at hx2
    rw [hgd1, ← hsb1]
    simpa using hx2

/-- Concrete four-record dataset for the C1 witness. -/
def c1mem : Dict := [("x", TTree.leaf ⟨[1, 2, 3, 4], 0⟩)]

/-- Concrete freshly constructed sampler for the C1 witness. -/
def c1start : Sampler :=
  { memory := c1mem, memoryLen := 4, rewards := ⟨[5, 6, 7, 8], 0⟩, sizes := [2, 2, 1],
    mem_stage := 1, gpu_stage := 2, device := 1, idxs := [[], [], []],
    mem_data := none, mem_rewards := none, gpu_data := none, gpu_rewards := none }

/-- Concrete final state of the three-stage run for the C1 witness. -/
def c1final : Sampler :=
  { memory := c1mem, memoryLen := 4, rewards := ⟨[5, 6, 7, 8], 0⟩, sizes := [2, 2, 1],
    mem_stage := 1, gpu_stage := 2, device := 1, idxs := [[0, 1], [1, 1], [0]],
    mem_data := some [("x", TTree.leaf ⟨[2, 2], 0⟩)],
    mem_rewards := some ⟨[6, 6], 0⟩,
    gpu_data := some [("x", TTree.leaf ⟨[2], 1⟩)],
    gpu_rewards := some ⟨[6], 1⟩ }

/-- Witness for C1: the staged protocol on a concrete four-record dataset
with tier sizes [2, 2, 1] and boundaries at the batch and minibatch tiers
satisfies every conclusion of the claim. -/
theorem claim_C1_witness :
    Sampler.init c1mem 4 ⟨[5, 6, 7, 8], 0⟩ [2, 2, 1] "batch" "minibatch" 1 = .ok c1start ∧
    c1start.runThree (fun i => i) (fun _ => 1) (fun _ => 0) = .ok c1final ∧
    ((c1final.idxs.getD 0 []).length = 2 ∧ (c1final.idxs.getD 1 []).length = 2 ∧
     (c1final.idxs.getD 2 []).length = 1 ∧ (∀ x ∈ c1final.idxs.getD 0 [], x < 4) ∧
     ((0 ≠ c1start.mem_stage ∧ 0 ≠ c1start.gpu_stage) →
       ∀ x ∈ c1final.idxs.getD 1 [], x ∈ c1final.idxs.getD 0 []) ∧
     ((0 = c1start.mem_stage ∨ 0 = c1start.gpu_stage) →
       ∀ x ∈ c1final.idxs.getD 1 [], x < (c1final.idxs.getD 0 []).length) ∧
     ((1 ≠ c1start.mem_stage ∧ 1 ≠ c1start.gpu_stage) →
       ∀ x ∈ c1final.idxs.getD 2 [], x ∈ c1final.idxs.getD 1 []) ∧
     ((1 = c1start.mem_stage ∨ 1 = c1start.gpu_stage) →
       ∀ x ∈ c1final.idxs.getD 2 [], x < (c1final.idxs.getD 1 []).length)) :=
  ⟨rfl, rfl, claim_C1 c1mem 4 ⟨[5, 6, 7, 8], 0⟩ 2 2 1 "batch" "minibatch" 1 c1start c1final
    (fun i => i) (fun _ => 1) (fun _ => 0) rfl rfl⟩

/-- C2: evaluation at a failing input. On the four-record sampler, the
call `sample(0, idx=[0])` selects `[0]` over the determined index space
(the fancy-indexing result of the override), yet the stored `idxs[0]` is
the random draw `[1, 1]`, not the manual selection: the random-choice line
runs even when an explicit index is supplied and overwrites it. -/
theorem claim_C2_code_bug :
    c1start.sample 0 (some [0]) (fun _ => 1) =
      .ok { c1start with idxs := [[1, 1], [], []] } ∧
    fancyIndex (c1start.samplePop 0) [0] = .ok [0] ∧
    ([1, 1] : List Nat) ≠ [0] :=
  ⟨rfl, rfl, by decide⟩

/-- Structure eta for the staging cache fields. -/
theorem Sampler_eta_mem (s : Sampler) (x : Option Dict) (y : Option Tensor)
    (hx : s.mem_data = x) (hy : s.mem_rewards = y) :
    ({ s with mem_data := x, mem_rewards := y } : Sampler) = s := by
  subst hx; subst hy; rfl

/-- C3: at a tier strictly before both materialization boundaries, `act`
returns no data, silently, together with the full reward array selected by
the stored tier indices, and leaves the sampler state unchanged. -/
theorem claim_C3 (s : Sampler) (st : Nat)
    (h1 : st < s.mem_stage) (h2 : st < s.gpu_stage) :
    s.act st = .ok (s, none, s.rewards.index (s.idxs.getD st [])) := by
  have hm : s.memPhase st = s := by
    unfold Sampler.memPhase; rw [if_neg (by omega)]
  have hg : s.gpuPhase st = .ok s := by
    unfold Sampler.gpuPhase; rw [if_neg (by omega)]
  have hr : s.returnSel st = .ok (none, s.rewards.index (s.idxs.getD st [])) := by
    unfold Sampler.returnSel; rw [if_neg (by omega), if_neg (by omega)]
  unfold Sampler.act
  simp only [hm, hg, hr]

/-- Witness for C3: a sampler with boundaries at the batch and minibatch
tiers serves tier 0 with no data and the directly selected rewards. -/
theorem claim_C3_witness :
    (0 < c1start.mem_stage ∧ 0 < c1start.gpu_stage) ∧
    c1start.act 0 = .ok (c1start, none, c1start.rewards.index (c1start.idxs.getD 0 [])) :=
  ⟨⟨by decide, by decide⟩, claim_C3 c1start 0 (by decide) (by decide)⟩

mutual
/-- Composition of two leaf transformations over a tensor tree. -/
theorem rtf_comp (f g : Tensor → Tensor) : ∀ t : TTree,
    recursive_tensor_func (recursive_tensor_func t f) g =
      recursive_tensor_func t (fun x => g (f x))
  | .leaf _ => rfl
  | .node cs => congrArg TTree.node (rtfs_comp f g cs)
/-- Composition of two leaf transformations over a list of tensor trees. -/
theorem rtfs_comp (f g : Tensor → Tensor) : ∀ cs : TTreeList,
    recursive_tensor_func_members (recursive_tensor_func_members cs f) g =
      recursive_tensor_func_members cs (fun x => g (f x))
  | .nil => rfl
  | .cons c cs => congrArg₂ TTreeList.cons (rtf_comp f g c) (rtfs_comp f g cs)
end

/-- Composition of two value maps over a dict. -/
theorem dict_map_map (d : Dict) (f g : TTree → TTree) :
    dict_map (dict_map d f) g = dict_map d (fun t => g (f t)) := by
  unfold dict_map
  rw [List.map_map]
  rfl

/-- Single combined copy: every leaf of the full dataset is narrowed to
the selected rows once and moved to the device once. -/
def restrictToDevice (m : Dict) (idx : List Nat) (dev : Nat) : Dict :=
  dict_map m (fun t => recursive_tensor_func t (fun x => (x.index idx).to dev))

/-- Device transfer of an already staged selection adds no second row
narrowing: mapping the staged copy with a null index equals the single
combined copy. -/
theorem narrow_once (m : Dict) (idx : List Nat) (dev : Nat) :
    dict_map_recursive_tensor_idx_to (Memory.getIdx m idx) none (some dev) =
      restrictToDevice m idx dev := by
  unfold dict_map_recursive_tensor_idx_to Memory.getIdx restrictToDevice
  rw [dict_map_map]
  exact congrArg (dict_map m) (funext fun t => by rw [rtf_comp]; rfl)

/-- C4: when the mem and gpu boundaries coincide at a tier, `act` at that
tier returns gpu-resident data equal to the full dataset restricted to the
stored tier rows and moved to the device, with the row selection applied
exactly once, and the staging reward caches are set consistently with that
single combined copy. -/
theorem claim_C4 (s : Sampler) (st : Nat)
    (h1 : s.mem_stage = st) (h2 : s.gpu_stage = st) :
    s.act st = .ok
      ({ s with mem_data := some (Memory.getIdx s.memory (s.idxs.getD st [])),
                mem_rewards := some (s.rewards.index (s.idxs.getD st [])),
                gpu_data := some (restrictToDevice s.memory (s.idxs.getD st []) s.device),
                gpu_rewards := some ((s.rewards.index (s.idxs.getD st [])).to s.device) },
       some (restrictToDevice s.memory (s.idxs.getD st []) s.device),
       (s.rewards.index (s.idxs.getD st [])).to s.device) := by
  subst h1
  simp [Sampler.act, Sampler.memPhase, Sampler.gpuPhase, Sampler.returnSel, h2, narrow_once]

/-- Concrete sampler with coinciding boundaries for the C4 witness. -/
def c4s : Sampler :=
  { memory := c1mem, memoryLen := 4, rewards := ⟨[5, 6, 7, 8], 0⟩, sizes := [3, 2, 1],
    mem_stage := 1, gpu_stage := 1, device := 2, idxs := [[0, 2, 3], [2, 0], []],
    mem_data := none, mem_rewards := none, gpu_data := none, gpu_rewards := none }

/-- Witness for C4: acting at the shared boundary tier of a concrete
sampler produces the single combined copy. -/
theorem claim_C4_witness :
    (c4s.mem_stage = 1 ∧ c4s.gpu_stage = 1) ∧
    c4s.act 1 = .ok
      ({ c4s with mem_data := some (Memory.getIdx c4s.memory (c4s.idxs.getD 1 [])),
                  mem_rewards := some (c4s.rewards.index (c4s.idxs.getD 1 [])),
                  gpu_data := some (restrictToDevice c4s.memory (c4s.idxs.getD 1 []) c4s.device),
                  gpu_rewards := some ((c4s.rewards.index (c4s.idxs.getD 1 [])).to c4s.device) },
       some (restrictToDevice c4s.memory (c4s.idxs.getD 1 []) c4s.device),
       (c4s.rewards.index (c4s.idxs.getD 1 [])).to c4s.device) :=
  ⟨⟨rfl, rfl⟩, claim_C4 c4s 1 rfl rfl⟩

/-- C7: re-acting at the same tier with no intervening sample is a pure
re-read: if `act` returned a state and output once, running `act` again
from that state returns the very same state and output. -/
theorem claim_C7 (s s1 : Sampler) (st : Nat) (d : Option Dict) (r : Tensor)
    (h : s.act st = .ok (s1, d, r)) : s1.act st = .ok (s1, d, r) := by
  unfold Sampler.act at h
  split at h
  · exact absurd h (by simp)
  rename_i s2 hg2
  split at h
  · exact absurd h (by simp)
  rename_i dr hsel
  injection h with h
  injection h with hA hBC
  injection hBC with hB hC
  subst hA; subst hB; subst hC
  have hMA : s2.memPhase st = s2 := by
    obtain ⟨e1, e2, e3, e4, e5, e6, e7, e8, e9, e10⟩ := gpuPhase_ok_fields hg2
    obtain ⟨m1, m2, m3, m4, m5, m6, m7, m8, m9, m10⟩ := memPhase_fields s st
    unfold Sampler.memPhase
    by_cases hc : st = s2.mem_stage
    · rw [if_pos hc]
      have hcs : st = s.mem_stage := hc.trans (e5.trans m5)
      have hval : (s.memPhase st).mem_data =
          some (Memory.getIdx s.memory (s.idxs.getD st [])) := by
        unfold Sampler.memPhase; rw [if_pos hcs]
      have hvalr : (s.memPhase st).mem_rewards =
          some (s.rewards.index (s.idxs.getD st [])) := by
        unfold Sampler.memPhase; rw [if_pos hcs]
      refine Sampler_eta_mem s2 _ _ ?_ ?_
      · rw [e9, hval, show s2.memory = s.memory from e1.trans m1,
          show s2.idxs = s.idxs from e8.trans m8]
      · rw [e10, hvalr, show s2.rewards = s.rewards from e3.trans m3,
          show s2.idxs = s.idxs from e8.trans m8]
    · rw [if_neg hc]
  have hMB : s2.gpuPhase st = .ok s2 := by
    obtain ⟨e1, e2, e3, e4, e5, e6, e7, e8, e9, e10⟩ := gpuPhase_ok_fields hg2
    by_cases hcg : st = s2.gpu_stage
    · unfold Sampler.gpuPhase at hg2
      rw [if_pos (hcg.trans e6)] at hg2
      cases hmd : (s.memPhase st).mem_data with
      | none =>
        rw [hmd] at hg2
        exact absurd hg2 (by simp)
      | some md =>
        cases hmr : (s.memPhase st).mem_rewards with
        | none =>
          rw [hmd, hmr] at hg2
          exact absurd hg2 (by simp)
        | some mr =>
          simp only [hmd, hmr] at hg2
          unfold Sampler.gpuPhase
          rw [if_pos hcg]
          simp only [show s2.mem_data = some md from e9.trans hmd,
            show s2.mem_rewards = some mr from e10.trans hmr]
          by_cases hcm : st = s2.mem_stage
          · rw [if_pos hcm]
            rw [if_pos (hcm.trans e5)] at hg2
            injection hg2 with hg2
            rw [← hg2]
          · rw [if_neg hcm]
            rw [if_neg (fun hx => hcm (hx.trans e5.symm))] at hg2
            injection hg2 with hg2
            rw [← hg2]
    · unfold Sampler.gpuPhase
      rw [if_neg hcg]
  unfold Sampler.act
  simp only [hMA, hMB, hsel]

/-- State after the first materializing act of the C7 witness. -/
def c7s1 : Sampler :=
  { memory := c1mem, memoryLen := 4, rewards := ⟨[5, 6, 7, 8], 0⟩, sizes := [3, 2, 1],
    mem_stage := 1, gpu_stage := 1, device := 2, idxs := [[0, 2, 3], [2, 0], []],
    mem_data := some [("x", TTree.leaf ⟨[3, 1], 0⟩)],
    mem_rewards := some ⟨[7, 5], 0⟩,
    gpu_data := some [("x", TTree.leaf ⟨[3, 1], 2⟩)],
    gpu_rewards := some ⟨[7, 5], 2⟩ }

/-- Witness for C7: acting twice at the shared boundary tier of a concrete
sampler yields the identical state and output both times. -/
theorem claim_C7_witness :
    c4s.act 1 = .ok (c7s1, some [("x", TTree.leaf ⟨[3, 1], 2⟩)], ⟨[7, 5], 2⟩) ∧
    c7s1.act 1 = .ok (c7s1, some [("x", TTree.leaf ⟨[3, 1], 2⟩)], ⟨[7, 5], 2⟩) :=
  ⟨rfl, claim_C7 c4s c7s1 1 (some [("x", TTree.leaf ⟨[3, 1], 2⟩)]) ⟨[7, 5], 2⟩ rfl⟩

/-- Sampler over an empty dataset with zero tier sizes, refuting C10 as
stated. -/
def c10s : Sampler :=
  { memory := [], memoryLen := 0, rewards := ⟨[], 0⟩, sizes := [0, 0, 0],
    mem_stage := 0, gpu_stage := 0, device := 0, idxs := [[], [], []],
    mem_data := none, mem_rewards := none, gpu_data := none, gpu_rewards := none }

/-- C10 counterexample: on an empty dataset with a zero tier-0 target
size, `stage('maxbatch')` does not raise; numpy permits an empty draw when
no samples are requested, so an empty selection is returned silently. -/
theorem claim_C10_counterexample :
    c10s.stage "maxbatch" none (fun _ => 0) =
      .ok ({ c10s with mem_data := some [], mem_rewards := some ⟨[], 0⟩,
                       gpu_data := some [], gpu_rewards := some ⟨[], 0⟩ },
           some [], ⟨[], 0⟩) := rfl

/-- C10 amended: on an empty dataset, provided the tier-0 target size is
positive, `stage('maxbatch')` raises the ValueError of the random index
draw rather than silently returning an empty selection. -/
theorem claim_C10_amended (s : Sampler) (dd : Nat → Nat)
    (hempty : s.memoryLen = 0) (hpos : 0 < s.sizes.getD 0 0) :
    s.stage "maxbatch" none dd =
      .error "ValueError: a must be greater than 0 unless no samples are taken" := by
  have hch : np_random_choice (s.samplePop 0) (s.sizes.getD 0 0) dd =
      .error "ValueError: a must be greater than 0 unless no samples are taken" := by
    unfold np_random_choice
    rw [if_pos ⟨by simp [Sampler.samplePop, hempty], by omega⟩]
  unfold Sampler.stage
  simp only [show stage_dict "maxbatch" = some 0 from rfl]
  rw [sample_none_eq]
  simp only [hch]

/-- Sampler over an empty dataset with positive tier sizes for the C10
witness. -/
def c10w : Sampler :=
  { memory := [], memoryLen := 0, rewards := ⟨[], 0⟩, sizes := [2, 1, 1],
    mem_stage := 1, gpu_stage := 2, device := 0, idxs := [[], [], []],
    mem_data := none, mem_rewards := none, gpu_data := none, gpu_rewards := none }

/-- Witness for the amended C10 at a concrete empty-dataset sampler with a
positive tier-0 size. -/
theorem claim_C10_witness :
    (c10w.memoryLen = 0 ∧ 0 < c10w.sizes.getD 0 0) ∧
    c10w.stage "maxbatch" none (fun _ => 0) =
      .error "ValueError: a must be greater than 0 unless no samples are taken" :=
  ⟨⟨rfl, by decide⟩, claim_C10_amended c10w (fun _ => 0) rfl (by decide)⟩

/-- Helper: the length invariant is preserved by any run of push and
clear operations. -/
theorem runOps_sameLengths : ∀ (ops : List BufOp) (b : MemoryBuffer),
    b.sameLengths → (runOps b ops).sameLengths := by
  intro ops
  induction ops with
  | nil => exact fun b hb => hb
  | cons op ops ih =>
    intro b hb
    apply ih
    cases op with
    | push r =>
      obtain ⟨h1, h2, h3, h4, h5, h6⟩ := hb
      refine ⟨?_, ?_, ?_, ?_, ?_, ?_⟩ <;>
        simp [BufOp.apply, MemoryBuffer.pushRecord, h1, h2, h3, h4, h5, h6]
    | clear => exact ⟨rfl, rfl, rfl, rfl, rfl, rfl⟩

/-- C8 counterexample: the `MemoryBuffer` class of the source defines no
`append` method; its method table holds exactly `__init__`, `__len__`,
`propagate_rewards` and `clear`, so the operation the claim attributes to
the class does not exist on it. -/
theorem claim_C8_counterexample : "append" ∉ MemoryBuffer.methodNames := by
  decide

/-- C8 amended: the `MemoryBuffer` class defines no `append` method;
records are added by the collection loop pushing one value onto each of
the seven parallel attribute sequences directly, and after any sequence
of such seven-way pushes and `clear` calls starting from a fresh buffer
all seven sequences have equal length. -/
theorem claim_C8_amended :
    "append" ∉ MemoryBuffer.methodNames ∧
    (∀ (b : MemoryBuffer) (r : Record),
      (b.pushRecord r).keys = b.keys ++ [r.key] ∧
      (b.pushRecord r).states = b.states ++ [r.state] ∧
      (b.pushRecord r).actions = b.actions ++ [r.action] ∧
      (b.pushRecord r).action_logs = b.action_logs ++ [r.action_log] ∧
      (b.pushRecord r).state_vals = b.state_vals ++ [r.state_val] ∧
      (b.pushRecord r).rewards = b.rewards ++ [r.reward] ∧
      (b.pushRecord r).is_terminals = b.is_terminals ++ [r.is_terminal]) ∧
    ∀ ops : List BufOp, (runOps MemoryBuffer.empty ops).sameLengths := by
  refine ⟨by decide, fun b r => ⟨rfl, rfl, rfl, rfl, rfl, rfl, rfl⟩, fun ops => ?_⟩
  exact runOps_sameLengths ops MemoryBuffer.empty ⟨rfl, rfl, rfl, rfl, rfl, rfl⟩

/-- C9: `propagate_rewards` is a read-only computation; it leaves all
seven stored sequences unchanged. -/
theorem claim_C9 (b : MemoryBuffer) (gamma : ℚ) :
    (b.propagate_rewards gamma).1.keys = b.keys ∧
    (b.propagate_rewards gamma).1.states = b.states ∧
    (b.propagate_rewards gamma).1.actions = b.actions ∧
    (b.propagate_rewards gamma).1.action_logs = b.action_logs ∧
    (b.propagate_rewards gamma).1.state_vals = b.state_vals ∧
    (b.propagate_rewards gamma).1.rewards = b.rewards ∧
    (b.propagate_rewards gamma).1.is_terminals = b.is_terminals :=
  ⟨rfl, rfl, rfl, rfl, rfl, rfl, rfl⟩

theorem propagate_aux_length (gamma : ℚ) :
    ∀ (l : List (Nat × ℚ × Bool)) (acc : Nat → ℚ),
      (propagate_aux gamma acc l).length = l.length := by
  intro l
  induction l with
  | nil => intro acc; rfl
  | cons e rest ih =>
    intro acc
    obtain ⟨k, r, term⟩ := e
    simp [propagate_aux, ih]

theorem fwdReturns_length (gamma : ℚ) (acc : Nat → ℚ) (l : List (Nat × ℚ × Bool)) :
    (fwdReturns gamma acc l).length = l.length := by
  unfold fwdReturns
  rw [List.length_reverse, propagate_aux_length, List.length_reverse]

theorem fwdReturns_snoc (gamma : ℚ) (acc : Nat → ℚ) (l : List (Nat × ℚ × Bool))
    (k : Nat) (r : ℚ) (term : Bool) :
    fwdReturns gamma acc (l ++ [(k, r, term)]) =
      fwdReturns gamma
        (fun k2 => if k2 = k then r + gamma * (if term then 0 else acc k) else acc k2) l
        ++ [r + gamma * (if term then 0 else acc k)] := by
  unfold fwdReturns
  simp [propagate_aux]

theorem propagate_aux_congr (gamma : ℚ) :
    ∀ (l : List (Nat × ℚ × Bool)) (acc1 acc2 : Nat → ℚ),
      (∀ e ∈ l, acc1 e.1 = acc2 e.1) →
      propagate_aux gamma acc1 l = propagate_aux gamma acc2 l := by
  intro l
  induction l with
  | nil => intro acc1 acc2 _; rfl
  | cons e rest ih =>
    intro acc1 acc2 hagree
    obtain ⟨k, r, term⟩ := e
    have hk : acc1 k = acc2 k := hagree (k, r, term) (by simp)
    simp only [propagate_aux, hk]
    congr 1
    apply ih
    intro e2 he2
    by_cases he : e2.1 = k
    · simp [he]
    · simp only [if_neg he]
      exact hagree e2 (by simp [he2])

theorem fwdReturns_congr (gamma : ℚ) (l : List (Nat × ℚ × Bool)) (acc1 acc2 : Nat → ℚ)
    (hagree : ∀ e ∈ l, acc1 e.1 = acc2 e.1) :
    fwdReturns gamma acc1 l = fwdReturns gamma acc2 l := by
  unfold fwdReturns
  rw [propagate_aux_congr gamma l.reverse acc1 acc2 (fun e he => hagree e (by simpa using he))]

theorem nextSameKey_append (k : Nat) :
    ∀ (ks : List Nat) (vs : List ℚ) (k0 : Nat) (v0 : ℚ) (d : ℚ),
      ks.length = vs.length →
      nextSameKey k (ks ++ [k0]) (vs ++ [v0]) d =
        nextSameKey k ks vs (if k0 = k then v0 else d) := by
  intro ks
  induction ks with
  | nil =>
    intro vs k0 v0 d hlen
    obtain rfl : vs = [] := List.length_eq_zero.mp hlen.symm
    rfl
  | cons k1 ks ih =>
    intro vs k0 v0 d hlen
    cases vs with
    | nil => exact absurd hlen (by simp)
    | cons v1 vs =>
      simp only [List.cons_append, nextSameKey]
      by_cases hk1 : k1 = k
      · simp [hk1]
      · simp only [if_neg hk1]
        exact ih vs k0 v0 d (by simpa using hlen)

theorem zip_reverse {α β : Type} :
    ∀ (xs : List α) (ys : List β), xs.length = ys.length →
      xs.reverse.zip ys.reverse = (xs.zip ys).reverse := by
  intro xs
  induction xs with
  | nil => intro ys h; obtain rfl : ys = [] := List.length_eq_zero.mp h.symm; rfl
  | cons x xs ih =>
    intro ys h
    cases ys with
    | nil => exact absurd h (by simp)
    | cons y ys =>
      have hlen : xs.length = ys.length := by simpa using h
      simp only [List.reverse_cons, List.zip_cons_cons]
      rw [List.zip_append (by simp [hlen]), ih ys hlen]
      simp

theorem getD_zip {α β : Type} :
    ∀ (xs : List α) (ys : List β) (t : Nat) (dx : α) (dy : β),
      t < xs.length → xs.length = ys.length →
      (xs.zip ys).getD t (dx, dy) = (xs.getD t dx, ys.getD t dy) := by
  intro xs
  induction xs with
  | nil => intro ys t dx dy ht _; exact absurd ht (by simp)
  | cons x xs ih =>
    intro ys t dx dy ht hlen
    cases ys with
    | nil => exact absurd hlen (by simp)
    | cons y ys =>
      cases t with
      | zero => rfl
      | succ t =>
        simp only [List.zip_cons_cons, List.getD_cons_succ]
        exact ih ys t dx dy (by simpa using ht) (by simpa using hlen)

/-- The returned sequence of `propagate_rewards` equals the forward-order
computation over the zipped entry list. -/
theorem propagate_eq_fwd (b : MemoryBuffer) (gamma : ℚ)
    (h1 : b.rewards.length = b.keys.length) (h2 : b.is_terminals.length = b.keys.length) :
    (b.propagate_rewards gamma).2 = fwdReturns gamma (fun _ => 0) (fwdEntries b) := by
  unfold MemoryBuffer.propagate_rewards fwdReturns fwdEntries
  have hz1 : b.rewards.reverse.zip b.is_terminals.reverse =
      (b.rewards.zip b.is_terminals).reverse :=
    zip_reverse b.rewards b.is_terminals (h1.trans h2.symm)
  have hz2 : b.keys.reverse.zip (b.rewards.zip b.is_terminals).reverse =
      (b.keys.zip (b.rewards.zip b.is_terminals)).reverse :=
    zip_reverse b.keys (b.rewards.zip b.is_terminals)
      (by rw [List.length_zip, h1, h2, Nat.min_self])
  rw [hz1, hz2]

/-- Default entry used when reading the zipped record list. -/
def entryDflt : Nat × ℚ × Bool := (0, 0, false)

/-- Pointwise recurrence of the forward return computation: each position
carries its reward plus gamma times the next same-key return (zero beyond
a terminal record, accumulator default past the end). -/
theorem fwdReturns_getD (gamma : ℚ) :
    ∀ (l : List (Nat × ℚ × Bool)) (acc : Nat → ℚ) (t : Nat), t < l.length →
      (fwdReturns gamma acc l).getD t 0 =
        (l.getD t entryDflt).2.1 + gamma *
          (if (l.getD t entryDflt).2.2 then 0 else
            nextSameKey (l.getD t entryDflt).1 ((l.map Prod.fst).drop (t + 1))
              ((fwdReturns gamma acc l).drop (t + 1)) (acc (l.getD t entryDflt).1)) := by
  intro l
  induction l using List.reverseRecOn with
  | nil => intro acc t ht; exact absurd ht (by simp)
  | append_singleton l e ih =>
    intro acc t ht
    obtain ⟨k, r, term⟩ := e
    have hv := fwdReturns_snoc gamma acc l k r term
    have hlenres :
        (fwdReturns gamma
          (fun k2 => if k2 = k then r + gamma * (if term then 0 else acc k) else acc k2)
          l).length = l.length := fwdReturns_length ..
    rcases Nat.lt_or_ge t l.length with htl | htl
    · have ht1 : t + 1 ≤ l.length := htl
      rw [hv]
      rw [List.getD_append _ _ _ _ (by rwa [hlenres])]
      rw [List.getD_append _ _ _ _ htl]
      rw [List.map_append]
      rw [List.drop_append_of_le_length (by simpa using ht1)]
      rw [List.drop_append_of_le_length (by rwa [hlenres])]
      simp only [List.map_cons, List.map_nil]
      rw [nextSameKey_append _ _ _ _ _ _
        (by rw [List.length_drop, List.length_drop, List.length_map, fwdReturns_length])]
      rw [ih _ t htl]
      have hdd : (if (l.getD t entryDflt).1 = k then r + gamma * (if term then 0 else acc k)
            else acc ((l.getD t entryDflt).1)) =
          (if (k, r, term).1 = (l.getD t entryDflt).1 then
            r + gamma * (if term then 0 else acc k) else acc ((l.getD t entryDflt).1)) := by
        by_cases hkk : (l.getD t entryDflt).1 = k
        · rw [if_pos hkk, if_pos hkk.symm]
        · rw [if_neg hkk, if_neg (fun hx => hkk hx.symm)]
      rw [hdd]
    · have ht2 : t = l.length := by
        have : t < l.length + 1 := by simpa using ht
        omega
      subst ht2
      have hres : (fwdReturns gamma acc (l ++ [(k, r, term)])).getD l.length 0 =
          r + gamma * (if term then 0 else acc k) := by
        rw [hv, List.getD_append_right _ _ _ _ (le_of_eq hlenres), hlenres, Nat.sub_self]
        rfl
      have hget : (l ++ [(k, r, term)]).getD l.length entryDflt = (k, r, term) := by
        rw [List.getD_append_right _ _ _ _ (le_refl _), Nat.sub_self]
        rfl
      have hdrop1 : (List.map Prod.fst (l ++ [(k, r, term)])).drop (l.length + 1) = [] :=
        List.drop_eq_nil_of_le (by simp)
      have hdrop2 : (fwdReturns gamma acc (l ++ [(k, r, term)])).drop (l.length + 1) = [] :=
        List.drop_eq_nil_of_le (by simp [fwdReturns_length])
      rw [hres, hget, hdrop1, hdrop2]
      rfl

/-- Single-key example log of the spec: rewards [1, 1, 1], terminals
[False, False, True]. -/
def exampleBuffer : MemoryBuffer :=
  { keys := [7, 7, 7], states := [0, 0, 0], actions := [0, 0, 0],
    action_logs := [0, 0, 0], state_vals := [0, 0, 0],
    rewards := [1, 1, 1], is_terminals := [false, false, true] }

/-- C5: on a well-formed log the returned sequence has one entry per
record, each entry satisfies the recurrence reward plus gamma times the
next same-key return (zero past a terminal record or when no later record
shares the key), and the spec example with gamma one half evaluates to
[7/4, 3/2, 1]. -/
theorem claim_C5 (b : MemoryBuffer) (gamma : ℚ)
    (h1 : b.rewards.length = b.keys.length) (h2 : b.is_terminals.length = b.keys.length) :
    ((b.propagate_rewards gamma).2.length = b.keys.length ∧
     ∀ t, t < b.keys.length →
       (b.propagate_rewards gamma).2.getD t 0 =
         b.rewards.getD t 0 + gamma *
           (if b.is_terminals.getD t false then 0 else
             nextSameKey (b.keys.getD t 0) (b.keys.drop (t + 1))
               ((b.propagate_rewards gamma).2.drop (t + 1)) 0)) ∧
    (exampleBuffer.propagate_rewards (1 / 2)).2 = [7 / 4, 3 / 2, 1] := by
  have hfe : (fwdEntries b).length = b.keys.length := by
    unfold fwdEntries
    rw [List.length_zip, List.length_zip, h1, h2, Nat.min_self, Nat.min_self]
  have hprop := propagate_eq_fwd b gamma h1 h2
  refine ⟨⟨?_, ?_⟩, ?_⟩
  · rw [hprop, fwdReturns_length, hfe]
  · intro t ht
    have hmain := fwdReturns_getD gamma (fwdEntries b) (fun _ => 0) t (by rwa [hfe])
    have hmap : (fwdEntries b).map Prod.fst = b.keys :=
      List.map_fst_zip _ _ (by rw [List.length_zip, h1, h2, Nat.min_self])
    have hget : (fwdEntries b).getD t entryDflt =
        (b.keys.getD t 0, b.rewards.getD t 0, b.is_terminals.getD t false) := by
      unfold fwdEntries
      rw [show entryDflt = ((0 : Nat), ((0 : ℚ), false)) from rfl]
      rw [getD_zip _ _ _ _ _ ht (by rw [List.length_zip, h1, h2, Nat.min_self])]
      rw [getD_zip _ _ _ _ _ (by rwa [h1]) (h1.trans h2.symm)]
    rw [hprop, hmain, hget, hmap]
  · simp only [MemoryBuffer.propagate_rewards, exampleBuffer, List.reverse_cons,
      List.reverse_nil, List.nil_append, List.cons_append, List.zip_cons_cons,
      List.zip_nil_right, propagate_aux]
    norm_num

/-- Witness for C5 at the spec example buffer with gamma one half. -/
theorem claim_C5_witness :
    (exampleBuffer.rewards.length = exampleBuffer.keys.length ∧
     exampleBuffer.is_terminals.length = exampleBuffer.keys.length) ∧
    (((exampleBuffer.propagate_rewards (1 / 2)).2.length = exampleBuffer.keys.length ∧
      ∀ t, t < exampleBuffer.keys.length →
        (exampleBuffer.propagate_rewards (1 / 2)).2.getD t 0 =
          exampleBuffer.rewards.getD t 0 + (1 / 2) *
            (if exampleBuffer.is_terminals.getD t false then 0 else
              nextSameKey (exampleBuffer.keys.getD t 0) (exampleBuffer.keys.drop (t + 1))
                ((exampleBuffer.propagate_rewards (1 / 2)).2.drop (t + 1)) 0)) ∧
     (exampleBuffer.propagate_rewards (1 / 2)).2 = [7 / 4, 3 / 2, 1]) :=
  ⟨⟨rfl, rfl⟩, claim_C5 exampleBuffer (1 / 2) rfl rfl⟩

theorem selectByKey_append {α : Type} (k : Nat) :
    ∀ (ks : List Nat) (vs : List α) (k0 : Nat) (v0 : α), ks.length = vs.length →
      selectByKey k (ks ++ [k0]) (vs ++ [v0]) =
        selectByKey k ks vs ++ (if k0 = k then [v0] else []) := by
  intro ks
  induction ks with
  | nil =>
    intro vs k0 v0 h
    obtain rfl : vs = [] := List.length_eq_zero.mp h.symm
    simp [selectByKey]
  | cons k1 ks ih =>
    intro vs k0 v0 h
    cases vs with
    | nil => exact absurd h (by simp)
    | cons v1 vs =>
      simp only [List.cons_append, selectByKey, List.append_eq]
      rw [ih vs k0 v0 (by simpa using h), List.append_assoc]

/-- The per-key selection of the forward returns equals the forward
returns of the per-key filtered entry list: accumulation is keyed
independently. -/
theorem select_fwdReturns (gamma : ℚ) (k : Nat) :
    ∀ (l : List (Nat × ℚ × Bool)) (acc : Nat → ℚ),
      selectByKey k (l.map Prod.fst) (fwdReturns gamma acc l) =
        fwdReturns gamma acc (l.filter (fun e => decide (e.1 = k))) := by
  intro l
  induction l using List.reverseRecOn with
  | nil => intro acc; rfl
  | append_singleton l e ih =>
    intro acc
    obtain ⟨ke, re, te⟩ := e
    rw [fwdReturns_snoc, List.map_append]
    simp only [List.map_cons, List.map_nil]
    rw [selectByKey_append k _ _ _ _ (by rw [List.length_map, fwdReturns_length])]
    rw [ih]
    rw [List.filter_append]
    by_cases hke : ke = k
    · rw [show List.filter (fun e => decide (e.1 = k)) [((ke, re, te) : Nat × ℚ × Bool)] =
          [(ke, re, te)] from by simp [List.filter, hke]]
      rw [fwdReturns_snoc, if_pos hke]
    · rw [show List.filter (fun e => decide (e.1 = k)) [((ke, re, te) : Nat × ℚ × Bool)] =
          [] from by simp [List.filter, hke]]
      rw [if_neg hke, List.append_nil, List.append_nil]
      apply fwdReturns_congr
      intro e2 he2
      have he2k : e2.1 = k := by
        have := List.of_mem_filter he2
        simpa using this
      simp only [he2k]
      rw [if_neg (fun hx => hke hx.symm)]

theorem selectByKey_length {α β : Type} (k : Nat) :
    ∀ (ks : List Nat) (vs : List α) (ws : List β),
      vs.length = ks.length → ws.length = ks.length →
      (selectByKey k ks vs).length = (selectByKey k ks ws).length := by
  intro ks
  induction ks with
  | nil => intro vs ws _ _; rfl
  | cons k1 ks ih =>
    intro vs ws h1 h2
    cases vs with
    | nil => exact absurd h1 (by simp)
    | cons v1 vs =>
      cases ws with
      | nil => exact absurd h2 (by simp)
      | cons w1 ws =>
        simp only [selectByKey, List.length_append]
        rw [ih vs ws (by simpa using h1) (by simpa using h2)]
        by_cases hk1 : k1 = k <;> simp [hk1]

theorem zip_select_filter (k : Nat) :
    ∀ (ks : List Nat) (rs : List ℚ) (ts : List Bool),
      rs.length = ks.length → ts.length = ks.length →
      (selectByKey k ks ks).zip ((selectByKey k ks rs).zip (selectByKey k ks ts)) =
        (ks.zip (rs.zip ts)).filter (fun e => decide (e.1 = k)) := by
  intro ks
  induction ks with
  | nil => intro rs ts _ _; rfl
  | cons k1 ks ih =>
    intro rs ts h1 h2
    cases rs with
    | nil => exact absurd h1 (by simp)
    | cons r1 rs =>
      cases ts with
      | nil => exact absurd h2 (by simp)
      | cons t1 ts =>
        have ihx := ih rs ts (by simpa using h1) (by simpa using h2)
        by_cases hk1 : k1 = k
        · simp only [selectByKey, if_pos hk1, List.singleton_append,
            List.zip_cons_cons, List.filter_cons]
          rw [if_pos (by simpa using hk1)]
          rw [ihx]
        · simp only [selectByKey, if_neg hk1, List.nil_append,
            List.zip_cons_cons, List.filter_cons]
          rw [if_neg (by simpa using hk1)]
          exact ihx

/-- The forward entry list of the one-key restriction is the per-key
filter of the full forward entry list. -/
theorem fwdEntries_restrict (b : MemoryBuffer) (k : Nat)
    (h1 : b.rewards.length = b.keys.length) (h2 : b.is_terminals.length = b.keys.length) :
    fwdEntries (b.restrictKey k) = (fwdEntries b).filter (fun e => decide (e.1 = k)) :=
  zip_select_filter k b.keys b.rewards b.is_terminals h1 h2

/-- Helper: the result entries at one key equal the result computed on
that key in isolation. -/
theorem restrict_prop (b : MemoryBuffer) (gamma : ℚ) (k : Nat)
    (h1 : b.rewards.length = b.keys.length) (h2 : b.is_terminals.length = b.keys.length) :
    selectByKey k b.keys (b.propagate_rewards gamma).2 =
      ((b.restrictKey k).propagate_rewards gamma).2 := by
  have hr1 : (b.restrictKey k).rewards.length = (b.restrictKey k).keys.length :=
    selectByKey_length k b.keys b.rewards b.keys h1 rfl
  have hr2 : (b.restrictKey k).is_terminals.length = (b.restrictKey k).keys.length :=
    selectByKey_length k b.keys b.is_terminals b.keys h2 rfl
  rw [propagate_eq_fwd b gamma h1 h2, propagate_eq_fwd _ gamma hr1 hr2]
  rw [fwdEntries_restrict b k h1 h2]
  rw [← select_fwdReturns gamma k (fwdEntries b) (fun _ => 0)]
  congr 1
  exact (List.map_fst_zip _ _ (by rw [List.length_zip, h1, h2, Nat.min_self])).symm

/-- C6: in a log interleaving two distinct keys arbitrarily, the returns
at the positions of each key equal the returns `propagate_rewards` would
compute on that key in isolation — the computation is independent per
key. -/
theorem claim_C6 (b : MemoryBuffer) (gamma : ℚ) (A B : Nat)
    (hAB : A ≠ B) (hkeys : ∀ k ∈ b.keys, k = A ∨ k = B)
    (h1 : b.rewards.length = b.keys.length) (h2 : b.is_terminals.length = b.keys.length) :
    selectByKey A b.keys (b.propagate_rewards gamma).2 =
      ((b.restrictKey A).propagate_rewards gamma).2 ∧
    selectByKey B b.keys (b.propagate_rewards gamma).2 =
      ((b.restrictKey B).propagate_rewards gamma).2 :=
  ⟨restrict_prop b gamma A h1 h2, restrict_prop b gamma B h1 h2⟩

/-- Two-key interleaved log for the C6 witness. -/
def c6b : MemoryBuffer :=
  { keys := [1, 2, 1, 2, 1], states := [0, 0, 0, 0, 0], actions := [0, 0, 0, 0, 0],
    action_logs := [0, 0, 0, 0, 0], state_vals := [0, 0, 0, 0, 0],
    rewards := [1, 10, 2, 20, 3], is_terminals := [false, false, true, true, false] }

/-- Witness for C6 at a concrete five-record interleaving of keys 1 and 2. -/
theorem claim_C6_witness :
    ((1 : Nat) ≠ 2 ∧ (∀ k ∈ c6b.keys, k = 1 ∨ k = 2) ∧
     c6b.rewards.length = c6b.keys.length ∧
     c6b.is_terminals.length = c6b.keys.length) ∧
    (selectByKey 1 c6b.keys (c6b.propagate_rewards (1 / 2)).2 =
       ((c6b.restrictKey 1).propagate_rewards (1 / 2)).2 ∧
     selectByKey 2 c6b.keys (c6b.propagate_rewards (1 / 2)).2 =
       ((c6b.restrictKey 2).propagate_rewards (1 / 2)).2) :=
  ⟨⟨by decide, by decide, rfl, rfl⟩,
   claim_C6 c6b (1 / 2) 1 2 (by decide) (by decide) rfl rfl⟩
